import Mathlib

/-!
Verification of the `nix-build-rs` crate (files `src/lib.rs`, `src/config.rs`)
against its natural-language specification.

The Rust code is shallowly embedded:
* `Config`, `NixTarget`, `Derivation` become Lean structures/inductives;
* the sequential `Command::arg`/`args` calls of `Config::build` become a
  sequential list construction (`buildArgs`);
* the environment (`NIX` variable, `which` lookup, `try_exists`,
  `fs::canonicalize`, process spawning) is passed in explicitly as functions;
* `serde_json` decoding of `Vec<Derivation>` is modelled at the JSON-value
  level: a `Json` tree (`none` standing for a byte sequence that is not
  valid JSON, e.g. the empty output) is decoded by `parseDerivations`,
  following the semantics of the `serde::Deserialize` derive on
  `Derivation` (`drv_path` with alias `drvPath`; unknown fields ignored;
  a missing or duplicate required field is an error; `HashMap` collects
  entries with last-wins insertion).
-/

namespace NixBuild

/-- JSON values, the shape `serde_json::from_slice` produces before the
typed decode.  Object fields are kept in document order, as serde visits
them. -/
inductive Json where
  | null
  | bool (b : Bool)
  | num (n : Int)
  | str (s : String)
  | arr (elems : List Json)
  | obj (fields : List (String × Json))

/-- `Error` from `src/lib.rs`. -/
inductive Error where
  | NixNotAvailable
  | BuildFailed
  | UnknownOutput
deriving DecidableEq

/-- `Derivation` from `src/config.rs`.  `PathBuf` is modelled as `String`;
the `outputs` `HashMap<String, PathBuf>` is modelled as an association list
built up by last-wins insertion (`hashInsert`). -/
structure Derivation where
  drv_path : String
  outputs : List (String × String)
deriving DecidableEq

/-- `Derivation::out`: `self.outputs.get("out")`. -/
def Derivation.out (d : Derivation) : Option String :=
  d.outputs.lookup "out"

/-- `HashMap::insert` on the association-list model: replaces the value of
an existing key, otherwise appends. -/
def hashInsert (m : List (String × String)) (k v : String) : List (String × String) :=
  match m with
  | [] => [(k, v)]
  | (k', v') :: rest => if k' = k then (k, v) :: rest else (k', v') :: hashInsert rest k v

/-- The serde map visitor's loop for `outputs: HashMap<String, PathBuf>`:
each entry's value must be a string; entries are inserted into the
accumulated map in document order (duplicate keys: last wins, as for
`HashMap`). -/
def decodeOutputsList : List (String × Json) → List (String × String) → Option (List (String × String))
  | [], acc => some acc
  | kv :: rest, acc =>
      match kv.2 with
      | Json.str s => decodeOutputsList rest (hashInsert acc kv.1 s)
      | _ => none

/-- Decode of the `outputs` field: the JSON value must be an object, decoded
entry by entry by `decodeOutputsList`. -/
def parseOutputs : Json → Option (List (String × String))
  | Json.obj kvs => decodeOutputsList kvs []
  | _ => none

/-- One step of the serde struct visitor for `Derivation`: the state holds
the fields seen so far.  A key matching `drv_path` (or its alias `drvPath`)
must carry a string and must not repeat; likewise `outputs`; any other key
is ignored together with its value. -/
def fieldStep (st : Option String × Option (List (String × String))) (kv : String × Json) :
    Option (Option String × Option (List (String × String))) :=
  if kv.1 = "drv_path" ∨ kv.1 = "drvPath" then
    match st.1 with
    | some _ => none
    | none =>
      match kv.2 with
      | Json.str s => some (some s, st.2)
      | _ => none
  else if kv.1 = "outputs" then
    match st.2 with
    | some _ => none
    | none => (parseOutputs kv.2).map (fun o => (st.1, some o))
  else
    some st

/-- The serde struct visitor's loop over the object's fields, applying
`fieldStep` to each in document order; any step's error aborts the record. -/
def decodeFieldsList : List (String × Json) → (Option String × Option (List (String × String))) →
    Option (Option String × Option (List (String × String)))
  | [], st => some st
  | kv :: rest, st =>
      match fieldStep st kv with
      | none => none
      | some st' => decodeFieldsList rest st'

/-- Typed decode of one `Derivation` record, following the
`serde::Deserialize` derive: the value must be an object, both required
fields must be present exactly once with well-typed values, unknown fields
are skipped. -/
def parseDerivation : Json → Option Derivation
  | Json.obj kvs =>
      match decodeFieldsList kvs (none, none) with
      | some (some d, some o) => some ⟨d, o⟩
      | _ => none
  | _ => none

/-- The serde sequence visitor's loop for `Vec<Derivation>`: elements are
decoded left to right and collected in order; any element's failure aborts
the whole decode. -/
def decodeSeqList : List Json → Option (List Derivation)
  | [] => some []
  | j :: rest =>
      match parseDerivation j with
      | none => none
      | some d =>
          match decodeSeqList rest with
          | none => none
          | some ds => some (d :: ds)

/-- Typed decode of `Vec<Derivation>`: the value must be an array and every
element must decode. -/
def parseDerivations : Json → Option (List Derivation)
  | Json.arr elems => decodeSeqList elems
  | _ => none

/-- `serde_json::from_slice::<Vec<Derivation>>(..).map_err(|_| Error::UnknownOutput)`:
`none` models stdout bytes that are not valid JSON at all (including the
empty byte sequence). -/
def decodeStdout : Option Json → Except Error (List Derivation)
  | none => Except.error Error.UnknownOutput
  | some j =>
      match parseDerivations j with
      | none => Except.error Error.UnknownOutput
      | some ds => Except.ok ds

/-- `NixTarget` from `src/config.rs` (`OsString` modelled as `String`). -/
inductive NixTarget where
  | Function (file : String)
  | Flake (installable : String)
  | Expr (expr : String)
deriving DecidableEq

/-- `NixTarget::default`: `Function("default.nix")`. -/
def NixTarget.default : NixTarget := NixTarget.Function "default.nix"

/-- The tokens the `match &self.target` arm of `Config::build` appends for
each variant. -/
def NixTarget.tokens : NixTarget → List String
  | NixTarget.Function file => ["-f", file]
  | NixTarget.Flake installable => [installable]
  | NixTarget.Expr expr => ["--expr", expr]

/-- `Config` from `src/config.rs` (`Vec` as `List`). -/
structure Config where
  target : NixTarget
  arg_exprs : List (String × String)
  arg_strs : List (String × String)
  impure : Bool
deriving DecidableEq

/-- `Config::new`. -/
def Config.new : Config :=
  { target := NixTarget.default, arg_exprs := [], arg_strs := [], impure := false }

/-- `Config::arg_expr`: pushes onto `arg_exprs`. -/
def Config.arg_expr (c : Config) (name value : String) : Config :=
  { c with arg_exprs := c.arg_exprs ++ [(name, value)] }

/-- `Config::arg_str`: pushes onto `arg_strs`. -/
def Config.arg_str (c : Config) (name value : String) : Config :=
  { c with arg_strs := c.arg_strs ++ [(name, value)] }

/-- `Config::target_file`: overwrites `target`. -/
def Config.target_file (c : Config) (filename : String) : Config :=
  { c with target := NixTarget.Function filename }

/-- `Config::target_flake`: overwrites `target`. -/
def Config.target_flake (c : Config) (flake : String) : Config :=
  { c with target := NixTarget.Flake flake }

/-- `Config::target_expr`: overwrites `target`. -/
def Config.target_expr (c : Config) (expr : String) : Config :=
  { c with target := NixTarget.Expr expr }

/-- `Config::impure` (the setter). -/
def Config.set_impure (c : Config) (b : Bool) : Config :=
  { c with impure := b }

/-- The argument list `Config::build` hands to the located `nix` binary,
built by the same sequence of `cmd.arg`/`cmd.args` calls as the source. -/
def buildArgs (c : Config) : List String :=
  let args := ["build"]
  let args := args ++ ["--no-link", "--json"]
  let args := args ++
    (match c.target with
     | NixTarget.Function file => ["-f", file]
     | NixTarget.Flake installable => [installable]
     | NixTarget.Expr expr => ["--expr", expr])
  let args := c.arg_exprs.foldl (fun a kv => a ++ ["--arg", kv.1, kv.2]) args
  let args := c.arg_strs.foldl (fun a kv => a ++ ["--argstr", kv.1, kv.2]) args
  let args := if c.impure then args ++ ["--impure"] else args
  let args := args ++ ["-L"]
  args ++ ["--experimental-features", "nix-command flakes"]

/-- `is_nix_available` from `src/lib.rs`.  `envNix` models
`std::env::var_os("NIX")`, `whichNix` models `which::which("nix").ok()`,
and `tryExists p` models `p.try_exists().ok()` (`none` when `try_exists`
itself errored, mirrored by `.ok()`); the source then applies
`unwrap_or_default`. -/
def is_nix_available (envNix whichNix : Option String) (tryExists : String → Option Bool) :
    Option String :=
  (envNix.orElse fun _ => whichNix).bind fun nix =>
    if (tryExists nix).getD false then some nix else none

/-- The outcome of `Command::output()`: `status.success()` and the parsed
stdout (see `decodeStdout` for the `none` convention). -/
structure ProcOutput where
  success : Bool
  stdout : Option Json

/-- `Config::build` after the token list is assembled: locate the tool
(`ok_or(NixNotAvailable)`), run it (`map_err(|_| BuildFailed)` on launch
failure), fail on non-zero exit status, then decode stdout.  `run`
models `cmd.output()`, taking the program and its argument list. -/
def configBuild (envNix whichNix : Option String) (tryExists : String → Option Bool)
    (run : String → List String → Option ProcOutput) (c : Config) :
    Except Error (List Derivation) :=
  match is_nix_available envNix whichNix tryExists with
  | none => Except.error Error.NixNotAvailable
  | some nix =>
      match run nix (buildArgs c) with
      | none => Except.error Error.BuildFailed
      | some output =>
          if output.success then decodeStdout output.stdout
          else Except.error Error.BuildFailed

/-- Rust `str::split_once('#')` on the character list: `some (before, after)`
at the first `#`, `none` when there is no `#`. -/
def splitCharsOnceHash : List Char → Option (List Char × List Char)
  | [] => none
  | c :: rest =>
      if c = '#' then some ([], rest)
      else (splitCharsOnceHash rest).map (fun p => (c :: p.1, p.2))

/-- Rust `str::split_once('#')`: `some (before, after)` at the first `#`,
`none` when the string has no `#`. -/
def splitOnceHash (s : String) : Option (String × String) :=
  (splitCharsOnceHash s.data).map (fun p => (String.mk p.1, String.mk p.2))

/-- The change-tracking hint the `NixTarget::Flake` arm of `Config::build`
prints (`cargo:rerun-if-changed=...`), or `none` when nothing is printed.
The source splits the CURRENT WORKING DIRECTORY string at `#` and
canonicalizes the part before it; the flake reference (`_installable`) is
not consulted.  `canonicalize` models `std::fs::canonicalize` (`none` for
`Err`). -/
def flakeRerunHint (canonicalize : String → Option String) (cwd : String)
    (_installable : String) : Option String :=
  match ((splitOnceHash cwd).map Prod.fst).map canonicalize with
  | some (some local_flake) => some (local_flake ++ "/flake.lock")
  | _ => none

/-- Modelled from the spec: "if the reference's pre-`#` portion resolves to
a local directory on disk, emit a change-tracking hint pointing at a
conventional lock-file path inside that directory".  The reference string,
not the working directory, is split at `#`. -/
def specFlakeRerunHint (canonicalize : String → Option String)
    (installable : String) : Option String :=
  match ((splitOnceHash installable).map Prod.fst).map canonicalize with
  | some (some local_flake) => some (local_flake ++ "/flake.lock")
  | _ => none

/-! ## Helper notions for the theorems -/

/-- The flag-name-value triples one argument channel contributes: three
separate argv tokens per entry, in insertion order. -/
def argTokens (flag : String) : List (String × String) → List String
  | [] => []
  | kv :: rest => flag :: kv.1 :: kv.2 :: argTokens flag rest

theorem argTokens_length (flag : String) (l : List (String × String)) :
    (argTokens flag l).length = 3 * l.length := by
  induction l with
  | nil => rfl
  | cons kv rest ih => simp [argTokens, ih]; ring

theorem foldl_append_argTokens (flag : String) (l : List (String × String)) (a : List String) :
    l.foldl (fun acc kv => acc ++ [flag, kv.1, kv.2]) a = a ++ argTokens flag l := by
  induction l generalizing a with
  | nil => simp [argTokens]
  | cons kv rest ih => simp [argTokens, ih]

/-- `Config::build` assembles exactly: base subcommand, fixed flags, target
tokens, `--arg` triples, `--argstr` triples, the optional `--impure`, then
the fixed trailing flags. -/
theorem buildArgs_eq (c : Config) :
    buildArgs c =
      ["build", "--no-link", "--json"] ++ c.target.tokens ++
        argTokens "--arg" c.arg_exprs ++ argTokens "--argstr" c.arg_strs ++
        (if c.impure then ["--impure"] else []) ++
        ["-L", "--experimental-features", "nix-command flakes"] := by
  obtain ⟨t, es, ss, imp⟩ := c
  simp only [buildArgs, foldl_append_argTokens]
  cases t <;> cases imp <;> simp [NixTarget.tokens]

theorem count_impure_base :
    (["build", "--no-link", "--json"] : List String).count "--impure" = 0 := rfl

theorem count_impure_trailing :
    (["-L", "--experimental-features", "nix-command flakes"] : List String).count "--impure" = 0 := rfl

theorem count_impure_self : (["--impure"] : List String).count "--impure" = 1 := rfl

/-! ## Claim theorems -/

/-- C2: the produced token sequence is exactly the base subcommand `build`,
the fixed flags `--no-link --json`, the target-specific tokens, one
`--arg name value` triple per expression-valued entry in insertion order,
one `--argstr name value` triple per string-valued entry in insertion
order, one `--impure` exactly when the impure flag is set (right after the
argument tokens), and the fixed trailing `-L --experimental-features
"nix-command flakes"`; the fixed parts contribute no impure token, so when
the flag is unset the only possible `--impure` occurrences are
user-supplied target/argument strings. -/
theorem build_token_order (c : Config) :
    buildArgs c =
      ["build", "--no-link", "--json"] ++ c.target.tokens ++
        argTokens "--arg" c.arg_exprs ++ argTokens "--argstr" c.arg_strs ++
        (if c.impure then ["--impure"] else []) ++
        ["-L", "--experimental-features", "nix-command flakes"] ∧
    (buildArgs c).count "--impure" =
      (c.target.tokens ++ argTokens "--arg" c.arg_exprs ++
        argTokens "--argstr" c.arg_strs).count "--impure" +
        (if c.impure then 1 else 0) := by
  refine ⟨buildArgs_eq c, ?_⟩
  rw [buildArgs_eq c]
  by_cases hi : c.impure
  · simp [hi, List.count_append, count_impure_base, count_impure_trailing,
      count_impure_self]
    try omega
  · simp [hi, List.count_append, count_impure_base, count_impure_trailing,
      count_impure_self]
    try omega

/-- C6: every target setter fully replaces the active target: after
`target_file` then `target_flake` only the Flake variant is active, its
token contribution is exactly the reference string, the argument channels
and the impure flag are untouched, and the built token sequence contains
the Flake token in target position and no `-f`/file tokens; further setter
calls keep replacing. -/
theorem target_setters_replace (c : Config) (f s : String) :
    ((c.target_file f).target_flake s).target = NixTarget.Flake s ∧
    ((c.target_file f).target_flake s).target.tokens = [s] ∧
    ((c.target_file f).target_flake s).arg_exprs = c.arg_exprs ∧
    ((c.target_file f).target_flake s).arg_strs = c.arg_strs ∧
    ((c.target_file f).target_flake s).impure = c.impure ∧
    buildArgs ((c.target_file f).target_flake s) =
      ["build", "--no-link", "--json"] ++ [s] ++
        argTokens "--arg" c.arg_exprs ++ argTokens "--argstr" c.arg_strs ++
        (if c.impure then ["--impure"] else []) ++
        ["-L", "--experimental-features", "nix-command flakes"] ∧
    (∀ e, ((c.target_flake s).target_expr e).target = NixTarget.Expr e) ∧
    (∀ g, ((c.target_expr s).target_file g).target = NixTarget.Function g) := by
  refine ⟨rfl, rfl, rfl, rfl, rfl, ?_, fun e => rfl, fun g => rfl⟩
  rw [buildArgs_eq]
  rfl

/-- One call of the builder's two argument setters, in the order the caller
makes them. -/
inductive AddCall where
  | expr (name value : String)
  | str (name value : String)

/-- Replay a sequence of `arg_expr`/`arg_str` calls on a configuration. -/
def applyCalls (c : Config) : List AddCall → Config
  | [] => c
  | AddCall.expr n v :: rest => applyCalls (c.arg_expr n v) rest
  | AddCall.str n v :: rest => applyCalls (c.arg_str n v) rest

/-- The expression-channel entries of a call sequence, in call order. -/
def exprEntries : List AddCall → List (String × String)
  | [] => []
  | AddCall.expr n v :: rest => (n, v) :: exprEntries rest
  | AddCall.str _ _ :: rest => exprEntries rest

/-- The string-channel entries of a call sequence, in call order. -/
def strEntries : List AddCall → List (String × String)
  | [] => []
  | AddCall.expr _ _ :: rest => strEntries rest
  | AddCall.str n v :: rest => (n, v) :: strEntries rest

theorem applyCalls_fields (calls : List AddCall) (c : Config) :
    (applyCalls c calls).target = c.target ∧
    (applyCalls c calls).impure = c.impure ∧
    (applyCalls c calls).arg_exprs = c.arg_exprs ++ exprEntries calls ∧
    (applyCalls c calls).arg_strs = c.arg_strs ++ strEntries calls := by
  induction calls generalizing c with
  | nil => simp [applyCalls, exprEntries, strEntries]
  | cons call rest ih =>
    cases call with
    | expr n v =>
      have h := ih (c.arg_expr n v)
      simpa [applyCalls, exprEntries, strEntries, Config.arg_expr] using h
    | str n v =>
      have h := ih (c.arg_str n v)
      simpa [applyCalls, exprEntries, strEntries, Config.arg_str] using h

/-- C7: for every interleaved sequence of `arg_expr`/`arg_str` calls, each
channel accumulates its entries in insertion order with no deduplication
(every instance is kept, three tokens each), and the built token sequence
emits all expression-channel triples before all string-channel triples,
each channel in insertion order. -/
theorem arg_channels_ordered (c : Config) (calls : List AddCall) :
    (applyCalls c calls).arg_exprs = c.arg_exprs ++ exprEntries calls ∧
    (applyCalls c calls).arg_strs = c.arg_strs ++ strEntries calls ∧
    buildArgs (applyCalls c calls) =
      ["build", "--no-link", "--json"] ++ c.target.tokens ++
        argTokens "--arg" (c.arg_exprs ++ exprEntries calls) ++
        argTokens "--argstr" (c.arg_strs ++ strEntries calls) ++
        (if c.impure then ["--impure"] else []) ++
        ["-L", "--experimental-features", "nix-command flakes"] ∧
    (∀ flag l, (argTokens flag l).length = 3 * l.length) := by
  obtain ⟨ht, hi, he, hs⟩ := applyCalls_fields calls c
  refine ⟨he, hs, ?_, argTokens_length⟩
  rw [buildArgs_eq, ht, hi, he, hs]

/-- C9: a new configuration defaults to the Function target with file
`default.nix`, empty argument channels and impure unset; a Function-target
configuration with no arguments builds exactly the base tokens, `-f`
followed by the file path, and the fixed trailing flags. -/
theorem new_config_defaults :
    Config.new.target = NixTarget.Function "default.nix" ∧
    Config.new.arg_exprs = [] ∧
    Config.new.arg_strs = [] ∧
    Config.new.impure = false ∧
    (∀ f, buildArgs ⟨NixTarget.Function f, [], [], false⟩ =
      ["build", "--no-link", "--json", "-f", f, "-L",
        "--experimental-features", "nix-command flakes"]) ∧
    buildArgs Config.new =
      ["build", "--no-link", "--json", "-f", "default.nix", "-L",
        "--experimental-features", "nix-command flakes"] := by
  refine ⟨rfl, rfl, rfl, rfl, fun f => ?_, ?_⟩ <;> rw [buildArgs_eq] <;> rfl

/-- C5: the locator yields `some path` exactly when the candidate resolves
and exists: with the environment override present the override is the
candidate and the `PATH` search result is never consulted (same result for
any two `PATH` outcomes, and a nonexistent override yields `none` even if
the search would have succeeded); without it the search result is the
candidate; a nonexistent candidate yields `none`, never an error. -/
theorem locator_resolution (p q : String) (te : String → Option Bool)
    (w w₁ w₂ : Option String) :
    is_nix_available (some p) w₁ te = is_nix_available (some p) w₂ te ∧
    is_nix_available (some p) w te =
      (if (te p).getD false then some p else none) ∧
    is_nix_available none w te =
      (w.bind fun cand => if (te cand).getD false then some cand else none) ∧
    (∀ env : Option String, is_nix_available env w te = some q ↔
      ((env.orElse fun _ => w) = some q ∧ (te q).getD false = true)) := by
  refine ⟨rfl, rfl, rfl, ?_⟩
  intro env
  simp only [is_nix_available]
  rw [Option.bind_eq_some]
  constructor
  · rintro ⟨a, ha, hf⟩
    by_cases h : (te a).getD false
    · simp [h] at hf
      subst hf
      exact ⟨ha, h⟩
    · simp [h] at hf
  · rintro ⟨ha, hq⟩
    exact ⟨q, ha, by simp [hq]⟩

/-- C3: once the tool is located, a launch failure of the external process
is classified as `BuildFailed` (not `NixNotAvailable`); a run that exits
with non-success yields `BuildFailed` whatever its stdout holds; decoding
happens only on a successful exit, where the result is exactly the decode
of stdout. -/
theorem build_failure_classification (envNix whichNix : Option String)
    (te : String → Option Bool) (run : String → List String → Option ProcOutput)
    (c : Config) (nix : String) :
    (is_nix_available envNix whichNix te = some nix →
      run nix (buildArgs c) = none →
      configBuild envNix whichNix te run c = Except.error Error.BuildFailed) ∧
    (∀ o, is_nix_available envNix whichNix te = some nix →
      run nix (buildArgs c) = some o → o.success = false →
      configBuild envNix whichNix te run c = Except.error Error.BuildFailed) ∧
    (∀ o, is_nix_available envNix whichNix te = some nix →
      run nix (buildArgs c) = some o → o.success = true →
      configBuild envNix whichNix te run c = decodeStdout o.stdout) := by
  refine ⟨?_, ?_, ?_⟩
  · intro h hr
    simp [configBuild, h, hr]
  · intro o h hr hs
    simp [configBuild, h, hr, hs]
  · intro o h hr hs
    simp [configBuild, h, hr, hs]

/-- A non-zero exit status together with well-formed JSON stdout (the empty
array) still yields `BuildFailed`, instantiating `build_failure_classification`
at a concrete locator, runner and configuration. -/
theorem build_failure_classification_witness :
    configBuild (some "/run/sw/bin/nix") none (fun _ => some true)
      (fun _ _ => some ⟨false, some (Json.arr [])⟩) Config.new =
      Except.error Error.BuildFailed :=
  (build_failure_classification (some "/run/sw/bin/nix") none
      (fun _ => some true) (fun _ _ => some ⟨false, some (Json.arr [])⟩)
      Config.new "/run/sw/bin/nix").2.1
    ⟨false, some (Json.arr [])⟩ rfl rfl rfl

/-- A concrete model of `std::fs::canonicalize`: only `/tmp` resolves. -/
def canonEx : String → Option String :=
  fun s => if s = "/tmp" then some "/tmp" else none

/-- C1 (code bug): with working directory `/tmp` (which has no `#`) and
flake reference `/tmp#hello`, whose pre-`#` portion `/tmp` resolves, the
code emits no change-tracking hint, because it splits the working-directory
string at `#` instead of the flake reference; the computation modelled from
the spec's words emits `/tmp/flake.lock`.  Conversely, with a `#` in the
working directory the code emits a hint derived from the working directory
even for a non-local reference. -/
theorem flake_hint_ignores_reference :
    flakeRerunHint canonEx "/tmp" "/tmp#hello" = none ∧
    specFlakeRerunHint canonEx "/tmp#hello" = some "/tmp/flake.lock" ∧
    flakeRerunHint canonEx "/tmp#x" "nixpkgs#hello" = some "/tmp/flake.lock" := by
  refine ⟨by decide, by decide, by decide⟩

theorem decodeSeqList_none_of_mem {l : List Json} {x : Json} (hx : x ∈ l)
    (hf : parseDerivation x = none) : decodeSeqList l = none := by
  induction l with
  | nil => cases hx
  | cons j rest ih =>
    rcases List.mem_cons.mp hx with rfl | hmem
    · simp [decodeSeqList, hf]
    · cases hp : parseDerivation j <;> simp [decodeSeqList, hp, ih hmem]

theorem decodeSeqList_map_eq {l : List Json} {ds : List Derivation}
    (h : decodeSeqList l = some ds) : ds.map some = l.map parseDerivation := by
  induction l generalizing ds with
  | nil =>
    simp [decodeSeqList] at h
    subst h
    simp
  | cons j rest ih =>
    cases hp : parseDerivation j with
    | none => simp [decodeSeqList, hp] at h
    | some d =>
      cases hr : decodeSeqList rest with
      | none => simp [decodeSeqList, hp, hr] at h
      | some ds' =>
        simp [decodeSeqList, hp, hr] at h
        subst h
        simp [hp, ih hr]

/-- C4: stdout that is not valid JSON (including zero-length) decodes to
the `UnknownOutput` error; so does any JSON value the typed decode rejects;
if any element of the array fails to decode the whole call fails (no
partial sequence); and a successful decode returns exactly the records of
the input array, in the same order (element `i` of the result decodes
element `i` of the array). -/
theorem decode_uniform (j : Json) (l : List Json) (x : Json) (ds : List Derivation) :
    decodeStdout none = Except.error Error.UnknownOutput ∧
    (parseDerivations j = none →
      decodeStdout (some j) = Except.error Error.UnknownOutput) ∧
    (x ∈ l → parseDerivation x = none →
      decodeStdout (some (Json.arr l)) = Except.error Error.UnknownOutput) ∧
    (decodeStdout (some (Json.arr l)) = Except.ok ds →
      ds.map some = l.map parseDerivation ∧ ds.length = l.length) := by
  refine ⟨rfl, ?_, ?_, ?_⟩
  · intro h
    simp [decodeStdout, h]
  · intro hx hf
    simp [decodeStdout, parseDerivations, decodeSeqList_none_of_mem hx hf]
  · intro h
    cases hr : decodeSeqList l with
    | none => simp [decodeStdout, parseDerivations, hr] at h
    | some ds' =>
      simp [decodeStdout, parseDerivations, hr] at h
      subst h
      have hmap := decodeSeqList_map_eq hr
      refine ⟨hmap, ?_⟩
      have := congrArg List.length hmap
      simpa using this

/-- A concrete well-formed record (alias spelling of the path field). -/
def sampleRecord : Json :=
  Json.obj [("drvPath", Json.str "/nix/store/a.drv"),
    ("outputs", Json.obj [("out", Json.str "/nix/store/a")])]

/-- The derivation `sampleRecord` decodes to. -/
def sampleDeriv : Derivation :=
  ⟨"/nix/store/a.drv", [("out", "/nix/store/a")]⟩

/-- `decode_uniform` instantiated at a concrete one-record array: the
decoded sequence lines up element by element with the input array. -/
theorem decode_uniform_witness :
    [sampleDeriv].map some = [sampleRecord].map parseDerivation ∧
      ([sampleDeriv].length = [sampleRecord].length) :=
  (decode_uniform Json.null [sampleRecord] Json.null [sampleDeriv]).2.2.2 rfl

theorem hashInsert_fst (m : List (String × String)) (k v : String) :
    (hashInsert m k v).map Prod.fst =
      if k ∈ m.map Prod.fst then m.map Prod.fst else m.map Prod.fst ++ [k] := by
  induction m with
  | nil => simp [hashInsert]
  | cons kv' rest ih =>
    obtain ⟨k', v'⟩ := kv'
    by_cases hk : k' = k
    · subst hk
      simp [hashInsert]
    · simp only [hashInsert, if_neg hk, List.map_cons]
      by_cases hm : k ∈ rest.map Prod.fst <;>
        simp [hm, ih, Ne.symm hk]

theorem hashInsert_nodup {m : List (String × String)} (k v : String)
    (h : (m.map Prod.fst).Nodup) : ((hashInsert m k v).map Prod.fst).Nodup := by
  rw [hashInsert_fst]
  by_cases hm : k ∈ m.map Prod.fst
  · simpa [hm] using h
  · rw [if_neg hm]
    refine List.Nodup.append h (List.nodup_singleton k) ?_
    intro a ha hb
    have : a = k := by simpa using hb
    subst this
    exact hm ha

theorem decodeOutputsList_nodup (kvs : List (String × Json)) :
    ∀ acc o, (acc.map Prod.fst).Nodup → decodeOutputsList kvs acc = some o →
      (o.map Prod.fst).Nodup := by
  induction kvs with
  | nil =>
    intro acc o h he
    simp [decodeOutputsList] at he
    subst he
    exact h
  | cons kv rest ih =>
    intro acc o h he
    cases hv : kv.2 <;> simp [decodeOutputsList, hv] at he
    exact ih _ _ (hashInsert_nodup _ _ h) he

theorem parseOutputs_nodup {v : Json} {o : List (String × String)}
    (h : parseOutputs v = some o) : (o.map Prod.fst).Nodup := by
  cases v <;> simp [parseOutputs] at h
  exact decodeOutputsList_nodup _ [] o (by simp) h

theorem fieldStep_snd {st st' : Option String × Option (List (String × String))}
    {kv : String × Json} (hs : fieldStep st kv = some st') :
    st'.2 = st.2 ∨ ∃ o, parseOutputs kv.2 = some o ∧ st'.2 = some o := by
  unfold fieldStep at hs
  split at hs
  · cases hst : st.1 <;> rw [hst] at hs
    · cases hv : kv.2 <;> simp [hv] at hs
      left
      rw [← hs]
    · simp at hs
  · split at hs
    · cases hst : st.2 <;> rw [hst] at hs
      · cases hp : parseOutputs kv.2 with
        | none => rw [hp] at hs; simp at hs
        | some o =>
          rw [hp] at hs
          simp at hs
          right
          exact ⟨o, rfl, by rw [← hs]⟩
      · simp at hs
    · left
      simp at hs
      rw [← hs]

theorem decodeFieldsList_nodup (kvs : List (String × Json)) :
    ∀ st st', (∀ o, st.2 = some o → (o.map Prod.fst).Nodup) →
      decodeFieldsList kvs st = some st' →
      ∀ o, st'.2 = some o → (o.map Prod.fst).Nodup := by
  induction kvs with
  | nil =>
    intro st st' h he
    simp [decodeFieldsList] at he
    subst he
    exact h
  | cons kv rest ih =>
    intro st st' h he
    cases hf : fieldStep st kv with
    | none => simp [decodeFieldsList, hf] at he
    | some st₁ =>
      simp [decodeFieldsList, hf] at he
      refine ih st₁ st' ?_ he
      intro o ho
      rcases fieldStep_snd hf with heq | ⟨o', hp, ho'⟩
      · exact h o (heq ▸ ho)
      · rw [ho] at ho'
        cases ho'
        exact parseOutputs_nodup hp

theorem parseDerivation_outputs_nodup {j : Json} {d : Derivation}
    (h : parseDerivation j = some d) : (d.outputs.map Prod.fst).Nodup := by
  cases j <;> simp [parseDerivation] at h
  rename_i kvs
  cases hf : decodeFieldsList kvs (none, none) with
  | none => rw [hf] at h; simp at h
  | some st =>
    rw [hf] at h
    obtain ⟨dp, op⟩ := st
    cases dp <;> cases op <;> simp at h
    rename_i s o
    have hn := decodeFieldsList_nodup kvs (none, none) (some s, some o)
      (by intro o ho; cases ho) hf o rfl
    rw [← h]
    exact hn

theorem lookup_of_mem_nodup {m : List (String × String)} {k v : String}
    (hn : (m.map Prod.fst).Nodup) (hm : (k, v) ∈ m) : m.lookup k = some v := by
  induction m with
  | nil => cases hm
  | cons kv rest ih =>
    obtain ⟨k', v'⟩ := kv
    rcases List.mem_cons.mp hm with heq | hmem
    · cases heq
      simp [List.lookup]
    · have hk : k ≠ k' := by
        intro heq
        subst heq
        have : k ∈ rest.map Prod.fst := List.mem_map.mpr ⟨(k, v), hmem, rfl⟩
        exact (List.nodup_cons.mp (by simpa using hn)).1 this
      have hb : (k == k') = false := beq_eq_false_iff_ne.mpr hk
      simp [List.lookup, hb]
      exact ih (List.nodup_cons.mp (by simpa using hn)).2 hmem

theorem lookup_eq_none_of_not_mem {m : List (String × String)} {k : String}
    (h : ∀ v, (k, v) ∉ m) : m.lookup k = none := by
  induction m with
  | nil => rfl
  | cons kv rest ih =>
    obtain ⟨k', v'⟩ := kv
    have hk : k ≠ k' := by
      intro heq
      subst heq
      exact h v' (List.mem_cons_self _ _)
    have hb : (k == k') = false := beq_eq_false_iff_ne.mpr hk
    simp only [List.lookup, hb]
    exact ih fun v hv => h v (List.mem_cons_of_mem _ hv)

/-- C8: for a decoded derivation record, the default-output lookup returns
the path stored under key `"out"` of the outputs mapping when that key is
present, and `none` when no entry with key `"out"` exists (decoded outputs
have unique keys, so the stored entry is unambiguous). -/
theorem out_default_lookup (j : Json) (d : Derivation)
    (h : parseDerivation j = some d) :
    (∀ p, ("out", p) ∈ d.outputs → d.out = some p) ∧
    ((∀ p, ("out", p) ∉ d.outputs) → d.out = none) := by
  have hn := parseDerivation_outputs_nodup h
  exact ⟨fun p hp => lookup_of_mem_nodup hn hp,
    fun hnp => lookup_eq_none_of_not_mem hnp⟩

/-- `out_default_lookup` at the concrete decoded record `sampleDeriv`:
its `"out"` entry is returned. -/
theorem out_default_lookup_witness :
    Derivation.out sampleDeriv = some "/nix/store/a" :=
  (out_default_lookup sampleRecord sampleDeriv (by decide)).1
    "/nix/store/a" (by decide)

theorem decodeFieldsList_append (l₁ l₂ : List (String × Json))
    (st : Option String × Option (List (String × String))) :
    decodeFieldsList (l₁ ++ l₂) st =
      match decodeFieldsList l₁ st with
      | none => none
      | some st' => decodeFieldsList l₂ st' := by
  induction l₁ generalizing st with
  | nil => simp [decodeFieldsList]
  | cons kv rest ih =>
    cases hf : fieldStep st kv <;> simp [decodeFieldsList, hf, ih]

theorem fieldStep_unknown (st : Option String × Option (List (String × String)))
    (k : String) (v : Json) (h1 : k ≠ "drv_path") (h2 : k ≠ "drvPath")
    (h3 : k ≠ "outputs") : fieldStep st (k, v) = some st := by
  unfold fieldStep
  simp [h1, h2, h3]

/-- C10: the record decoder ignores unknown fields: inserting an entry with
any unrecognized key (and any value) anywhere in the object leaves the
decode result unchanged, so records carrying extra fields still decode;
and the two accepted spellings of the derivation-path field decode
identically. -/
theorem unknown_fields_ignored (kvs₁ kvs₂ : List (String × Json)) (k : String) (v : Json)
    (h1 : k ≠ "drv_path") (h2 : k ≠ "drvPath") (h3 : k ≠ "outputs") :
    parseDerivation (Json.obj (kvs₁ ++ (k, v) :: kvs₂)) =
      parseDerivation (Json.obj (kvs₁ ++ kvs₂)) ∧
    (∀ s o, parseDerivation (Json.obj [("drvPath", Json.str s), ("outputs", o)]) =
      parseDerivation (Json.obj [("drv_path", Json.str s), ("outputs", o)])) := by
  constructor
  · show (match decodeFieldsList (kvs₁ ++ (k, v) :: kvs₂) (none, none) with
      | some (some d, some o) => some (⟨d, o⟩ : Derivation)
      | _ => none) =
      (match decodeFieldsList (kvs₁ ++ kvs₂) (none, none) with
      | some (some d, some o) => some (⟨d, o⟩ : Derivation)
      | _ => none)
    rw [decodeFieldsList_append kvs₁ ((k, v) :: kvs₂) (none, none),
      decodeFieldsList_append kvs₁ kvs₂ (none, none)]
    cases hf : decodeFieldsList kvs₁ (none, none) with
    | none => rfl
    | some st => simp [decodeFieldsList, fieldStep_unknown st k v h1 h2 h3]
  · intro s o
    rfl

/-- `unknown_fields_ignored` at a concrete record: an extra `"extra"` field
does not change the decode. -/
theorem unknown_fields_ignored_witness :
    parseDerivation (Json.obj [("drvPath", Json.str "/d.drv"), ("extra", Json.num 3),
      ("outputs", Json.obj [])]) =
      parseDerivation (Json.obj [("drvPath", Json.str "/d.drv"), ("outputs", Json.obj [])]) :=
  (unknown_fields_ignored [("drvPath", Json.str "/d.drv")] [("outputs", Json.obj [])]
    "extra" (Json.num 3) (by decide) (by decide) (by decide)).1

end NixBuild
